import Mathlib

/-!
Verification of the ICON source-chain receiver
(`cmd/iconbridge/chain/icon/receiver.go` and `client.go`).

The Go code is shallowly embedded: pure fragments become Lean functions,
RPC calls and other I/O become oracle parameters (functions supplied as
arguments), goroutine retry/collect machinery becomes structural
recursion over explicit queues, and machine integers become `Nat`/`Int`
(heights and sequence counters stay far below 2^63 / 2^64; where Go
truncates with `Uint64()` we take `% 2^64` explicitly).

Types from files of the repository that are not part of this tree
(`chain/types.go`, `verifier.go`, `common/...`) are modelled from the
spec, each with a doc comment saying so.
-/

namespace IconBridge

/-- Byte strings (`[]byte`) are lists of byte values. -/
abbrev Bytes : Type := List Nat

/-- Modelled from the spec: `chain.Event` — `{Next (BTP address), Sequence
(uint64 counter), Message (payload bytes)}`; `chain/types.go` is not in
the tree. -/
structure Event where
  next : Bytes
  sequence : Nat
  message : Bytes
  deriving Repr, DecidableEq

/-- Modelled from the spec: `chain.Receipt` — `{height, indexInBlock,
events[]}` after filtering; `chain/types.go` is not in the tree. -/
structure Receipt where
  index : Nat
  height : Int
  events : List Event
  deriving Repr, DecidableEq

/-- Modelled from the spec: `chain.Message = {Receipts: [Receipt]}`. -/
structure Message where
  receipts : List Receipt
  deriving Repr, DecidableEq

/-! ## The Subscribe sequence policy (receiver.go lines 649-670)

`Subscribe` installs a callback that walks every receipt's events in
order, keeping an event whose sequence equals the expected counter
(incrementing it), failing hard on a larger sequence, and silently
dropping a smaller one.  The callback then replaces the receipt's event
list with the kept events and, when the receipt slice is non-empty,
sends one `chain.Message` on the message channel. -/

/-- The inner `switch` of the Subscribe callback, folded over one
receipt's events: keep on `Sequence == opts.Seq` (and increment), error
on `Sequence > opts.Seq`, drop otherwise. -/
def filterEvents (seq : Nat) : List Event → Except String (Nat × List Event)
  | [] => .ok (seq, [])
  | e :: es =>
    if e.sequence = seq then
      match filterEvents (seq + 1) es with
      | .error msg => .error msg
      | .ok (s, kept) => .ok (s, e :: kept)
    else if e.sequence > seq then .error ("invalid event seq")
    else filterEvents seq es

/-- The receipt loop of the Subscribe callback: each receipt's event list
is replaced by the events `filterEvents` keeps; the receipt itself is
never removed. -/
def processReceipts (seq : Nat) : List Receipt → Except String (Nat × List Receipt)
  | [] => .ok (seq, [])
  | r :: rs =>
    match filterEvents seq r.events with
    | .error msg => .error msg
    | .ok (s, kept) =>
      match processReceipts s rs with
      | .error msg => .error msg
      | .ok (s2, rest) => .ok (s2, { r with events := kept } :: rest)

/-- The whole Subscribe callback body (receiver.go lines 649-670): run
the sequence policy, then send `Message{Receipts: receipts}` iff the
receipt slice is non-empty.  Returns the updated expected sequence and
the message sent, if any. -/
def subscribeCallback (seq : Nat) (receipts : List Receipt) :
    Except String (Nat × Option Message) :=
  match processReceipts seq receipts with
  | .error msg => .error msg
  | .ok (s, rs) => .ok (s, if rs.length > 0 then some ⟨rs⟩ else none)

/-- Sequences delivered by a receipt list: the kept events of all
receipts, flattened in order. -/
def deliveredSeqs (rs : List Receipt) : List Nat :=
  (rs.flatMap Receipt.events).map Event.sequence

/-- A whole subscription run of the callback: `opts.Seq` persists across
invocations, so successive receipt batches are filtered with the counter
the previous batch left behind. -/
def subscribeRun (seq : Nat) : List (List Receipt) →
    Except String (Nat × List (List Receipt))
  | [] => .ok (seq, [])
  | rs :: rest =>
    match processReceipts seq rs with
    | .error e => .error e
    | .ok (s1, out1) =>
      match subscribeRun s1 rest with
      | .error e => .error e
      | .ok (s2, outs) => .ok (s2, out1 :: outs)

/-- View of `Except` as a sum, used to derive decidable equality. -/
def exceptToSum {ε α : Type _} : Except ε α → ε ⊕ α
  | .error e => .inl e
  | .ok a => .inr a

instance {ε α : Type _} [DecidableEq ε] [DecidableEq α] : DecidableEq (Except ε α) :=
  fun a b => decidable_of_iff (exceptToSum a = exceptToSum b)
    (by cases a <;> cases b <;> simp [exceptToSum])

/-- Concatenation of consecutive ranges (step-1 specialization of
`List.range'_append`). -/
theorem range'_add (s a b : Nat) :
    List.range' s a ++ List.range' (s + a) b = List.range' s (a + b) := by
  have h := List.range'_append s a b 1
  rw [Nat.one_mul, Nat.add_comm b a] at h
  exact h

/-- `List.range'`-style helper for filterEvents: kept sequences are
consecutive from the starting counter, and the counter advances by the
number of kept events. -/
theorem filterEvents_consecutive (evs : List Event) :
    ∀ seq s kept, filterEvents seq evs = .ok (s, kept) →
      kept.map Event.sequence = List.range' seq kept.length ∧ s = seq + kept.length := by
  induction evs with
  | nil =>
    intro seq s kept h
    simp only [filterEvents] at h
    cases h
    simp
  | cons e es ih =>
    intro seq s kept h
    simp only [filterEvents] at h
    by_cases he : e.sequence = seq
    · simp only [he, if_pos rfl] at h
      cases hrec : filterEvents (seq + 1) es with
      | error msg => rw [hrec] at h; cases h
      | ok p =>
        obtain ⟨s1, kept1⟩ := p
        rw [hrec] at h
        simp only [Except.ok.injEq, Prod.mk.injEq] at h
        obtain ⟨rfl, rfl⟩ := h
        obtain ⟨h1, h2⟩ := ih (seq + 1) s kept1 hrec
        constructor
        · simp [List.range'_succ, h1, he]
        · simpa [Nat.add_assoc, Nat.add_comm 1 kept1.length] using h2
    · rw [if_neg he] at h
      by_cases hgt : e.sequence > seq
      · rw [if_pos hgt] at h; cases h
      · rw [if_neg hgt] at h
        exact ih seq s kept h

/-- Across a whole receipt list, the delivered (kept) sequences are
consecutive from the starting counter and the counter advances by their
number. -/
theorem processReceipts_consecutive (rs : List Receipt) :
    ∀ seq s out, processReceipts seq rs = .ok (s, out) →
      deliveredSeqs out = List.range' seq (deliveredSeqs out).length ∧
        s = seq + (deliveredSeqs out).length := by
  induction rs with
  | nil =>
    intro seq s out h
    simp only [processReceipts] at h
    cases h
    simp [deliveredSeqs]
  | cons r rest ih =>
    intro seq s out h
    cases hf : filterEvents seq r.events with
    | error msg => simp only [processReceipts, hf] at h; simp at h
    | ok p =>
      obtain ⟨s1, kept⟩ := p
      cases hrec : processReceipts s1 rest with
      | error msg => simp only [processReceipts, hf, hrec] at h; simp at h
      | ok q =>
        obtain ⟨s2, out1⟩ := q
        simp only [processReceipts, hf, hrec] at h
        simp only [Except.ok.injEq, Prod.mk.injEq] at h
        obtain ⟨rfl, rfl⟩ := h
        obtain ⟨hf1, hf2⟩ := filterEvents_consecutive r.events seq s1 kept hf
        subst hf2
        obtain ⟨hr1, hr2⟩ := ih (seq + kept.length) s2 out1 hrec
        have hds : deliveredSeqs ({ r with events := kept } :: out1) =
            kept.map Event.sequence ++ deliveredSeqs out1 := by
          simp [deliveredSeqs]
        constructor
        · rw [hds, hf1, hr1, List.length_append, List.length_range',
              List.length_range', range'_add]
        · rw [hds]
          simp only [List.length_append, List.length_map]
          omega

/-- Claim C2: the Subscribe sequence policy — applied to matched events
in order with the expected counter starting at `startSeq + 1` (Subscribe
pre-increments `opts.Seq`) — delivers events whose sequences are exactly
`startSeq + 1, startSeq + 2, ...`: each delivered sequence equals the
previous one plus one and the first equals `startSeq + 1`; an event with
a larger sequence aborts with the `invalid event seq` error and a
smaller one is dropped silently (the `filterEvents` arms). -/
theorem subscribeRun_consecutive (batches : List (List Receipt)) :
    ∀ seq s outs, subscribeRun seq batches = .ok (s, outs) →
      outs.flatMap deliveredSeqs =
          List.range' seq (outs.flatMap deliveredSeqs).length ∧
        s = seq + (outs.flatMap deliveredSeqs).length := by
  induction batches with
  | nil =>
    intro seq s outs h
    simp only [subscribeRun] at h
    cases h
    simp
  | cons rs rest ih =>
    intro seq s outs h
    cases hp : processReceipts seq rs with
    | error e => simp only [subscribeRun, hp] at h; simp at h
    | ok p =>
      obtain ⟨s1, out1⟩ := p
      cases hrec : subscribeRun s1 rest with
      | error e => simp only [subscribeRun, hp, hrec] at h; simp at h
      | ok q =>
        obtain ⟨s2, outs1⟩ := q
        simp only [subscribeRun, hp, hrec] at h
        simp only [Except.ok.injEq, Prod.mk.injEq] at h
        obtain ⟨rfl, rfl⟩ := h
        obtain ⟨hp1, hp2⟩ := processReceipts_consecutive rs seq s1 out1 hp
        subst hp2
        obtain ⟨hr1, hr2⟩ := ih (seq + (deliveredSeqs out1).length) s2 outs1 hrec
        have hflat : (out1 :: outs1).flatMap deliveredSeqs =
            deliveredSeqs out1 ++ outs1.flatMap deliveredSeqs := by
          simp
        constructor
        · rw [hflat, hp1, hr1, List.length_append, List.length_range',
              List.length_range', range'_add]
        · rw [hflat]
          simp only [List.length_append]
          omega

/-- Claim C2: the Subscribe sequence policy — applied to matched events
in block, receipt and event-index order with the expected counter
starting at `startSeq + 1` (Subscribe pre-increments `opts.Seq`) and
persisting across callback invocations — delivers events whose
sequences are exactly `startSeq + 1, startSeq + 2, ...` over the whole
run: each delivered sequence equals the previous one plus one and the
first equals `startSeq + 1`; an event with a larger sequence aborts with
the `invalid event seq` error and a smaller one is dropped silently
(the `filterEvents` arms). -/
theorem subscribe_sequence_policy (startSeq : Nat) (batches : List (List Receipt))
    (s : Nat) (outs : List (List Receipt))
    (h : subscribeRun (startSeq + 1) batches = .ok (s, outs)) :
    outs.flatMap deliveredSeqs =
        List.range' (startSeq + 1) (outs.flatMap deliveredSeqs).length ∧
      s = startSeq + 1 + (outs.flatMap deliveredSeqs).length :=
  subscribeRun_consecutive batches (startSeq + 1) s outs h

/-- Witness for C2: a concrete two-invocation run — expected counter 7
(startSeq 6), a first batch with events of sequence 5 (dropped), 7 and 8
(kept), a second batch with sequence 9: delivered sequences are
`[7, 8, 9]`. -/
theorem subscribe_sequence_policy_witness :
    [[(⟨0, 100, [⟨[1], 7, [2]⟩, ⟨[1], 8, [3]⟩]⟩ : Receipt)],
        [⟨1, 101, [⟨[1], 9, [4]⟩]⟩]].flatMap deliveredSeqs =
      List.range' 7 3 ∧
    subscribeRun 7 [[⟨0, 100, [⟨[1], 5, [9]⟩, ⟨[1], 7, [2]⟩, ⟨[1], 8, [3]⟩]⟩],
        [⟨1, 101, [⟨[1], 9, [4]⟩]⟩]] =
      .ok (10, [[⟨0, 100, [⟨[1], 7, [2]⟩, ⟨[1], 8, [3]⟩]⟩],
        [⟨1, 101, [⟨[1], 9, [4]⟩]⟩]]) := by
  constructor
  · have := subscribe_sequence_policy 6
      [[⟨0, 100, [⟨[1], 5, [9]⟩, ⟨[1], 7, [2]⟩, ⟨[1], 8, [3]⟩]⟩],
        [⟨1, 101, [⟨[1], 9, [4]⟩]⟩]]
      10
      [[⟨0, 100, [⟨[1], 7, [2]⟩, ⟨[1], 8, [3]⟩]⟩], [⟨1, 101, [⟨[1], 9, [4]⟩]⟩]]
      (by decide)
    exact this.1
  · decide

/-! ## The fetch-stage event walk (receiver.go lines 501-608)

Each fan-out task resolves the notification's event indexes through
`GetProofForEvents` + `mptProve`, decodes every event log, matches it
against the raw log filter, and only appends the receipt to the block
result when its matched event list is non-empty.  `mptProve` and the RLP
decoders live outside this tree, so the proof walk is an oracle
`proveLog` returning the decoded `EventLog` for an event position. -/

/-- Modelled from the spec: decoded `EventLog` — `{address, indexed[],
data[]}` (RLP struct decoded by `codec.RLP`, not in this tree). -/
structure EventLog where
  addr : Bytes
  indexed : List Bytes
  data : List Bytes
  deriving Repr, DecidableEq

/-- The raw event-log filter of the receiver (`eventLogRawFilter`):
contract address, event signature and destination BTP address, all as
raw bytes, plus the starting sequence. -/
structure EventLogRawFilter where
  addr : Bytes
  signature : Bytes
  next : Bytes
  seq : Nat
  deriving Repr, DecidableEq

/-- Index constants of receiver.go lines 37-39. -/
def EventIndexSignature : Nat := 0

/-- Index of the destination BTP address among the indexed fields. -/
def EventIndexNext : Nat := 1

/-- Index of the sequence number among the indexed fields. -/
def EventIndexSequence : Nat := 2

/-- Retry constant of receiver.go line 40. -/
def RPCCallRetry : Nat := 5

/-- The filter match of receiver.go lines 560-562 (`bytes.Equal` on
address, signature and next).  Go indexes `Indexed[0..2]` and `Data[0]`
directly and would panic on shorter slices; well-formed `Message(...)`
logs always carry three indexed fields and one data field, so the
embedding reads them with a `[]` default. -/
def matchesFilter (f : EventLogRawFilter) (el : EventLog) : Prop :=
  el.addr = f.addr ∧
    el.indexed.getD EventIndexSignature [] = f.signature ∧
    el.indexed.getD EventIndexNext [] = f.next

instance (f : EventLogRawFilter) (el : EventLog) : Decidable (matchesFilter f el) :=
  inferInstanceAs (Decidable (_ ∧ _ ∧ _))

/-- Big-endian bytes to integer (`common.HexInt.SetBytes`). -/
def bytesToNat (bs : Bytes) : Nat :=
  bs.foldl (fun acc b => acc * 256 + b) 0

/-- The `chain.Event` built for a matched log (receiver.go lines
563-569); `seqGot.Uint64()` truncates to 64 bits. -/
def eventOfLog (el : EventLog) : Event :=
  { next := el.indexed.getD EventIndexNext []
    sequence := bytesToNat (el.indexed.getD EventIndexSequence []) % 2 ^ 64
    message := el.data.getD 0 [] }

/-- The per-receipt event walk (receiver.go lines 545-593): for each of
the `count` requested event positions, prove and decode the log
(`proveLog j`, an oracle for `mptProve` + RLP decode), append the built
event when the filter matches, and fail with `invalid event` otherwise. -/
def walkEvents (f : EventLogRawFilter) (proveLog : Nat → Except String EventLog) :
    (count : Nat) → (j : Nat) → Except String (List Event)
  | 0, _ => .ok []
  | c + 1, j =>
    match proveLog j with
    | .error e => .error e
    | .ok el =>
      if matchesFilter f el then
        match walkEvents f proveLog c (j + 1) with
        | .error e => .error e
        | .ok evs => .ok (eventOfLog el :: evs)
      else .error ("invalid event")

/-- The tail of the per-receipt loop (receiver.go lines 594-606): a
receipt is appended to the block result only when its matched event list
is non-empty; a non-empty list shorter than the fetched event count is
the `failed to verify all events for the receipt` error. -/
def taskReceipt (f : EventLogRawFilter) (proveLog : Nat → Except String EventLog)
    (height : Int) (idx : Nat) (numEvents : Nat) : Except String (Option Receipt) :=
  match walkEvents f proveLog numEvents 0 with
  | .error e => .error e
  | .ok evs =>
    if evs.length > 0 then
      if evs.length = numEvents then .ok (some ⟨idx, height, evs⟩)
      else .error ("failed to verify all events for the receipt")
    else .ok none

/-- Claim C3 fails on the code: the Subscribe callback replaces a
receipt's event list with the sequence-filtered events but never removes
the receipt, so a `Message` can carry a receipt whose events were all
dropped by the `seq < expected` arm.  Concretely: expected sequence 7,
one receipt whose only event has sequence 5 — the callback still sends a
message, containing that receipt with an empty event list. -/
theorem message_can_carry_empty_receipt :
    subscribeCallback 7 [⟨0, 100, [⟨[1], 5, [9]⟩]⟩] =
      .ok (7, some ⟨[⟨0, 100, []⟩]⟩) ∧
    (⟨0, 100, []⟩ : Receipt).events = [] := by
  constructor
  · rfl
  · rfl

/-- Claim C3, amended: at the fetch stage every receipt placed into a
block result has a non-empty (matched) event list — `taskReceipt` never
returns a receipt with no events — but a receipt whose events are all
dropped later by the sequence policy remains in the emitted `Message`
with an empty event list (witnessed by the concrete run of
`message_can_carry_empty_receipt`). -/
theorem fetch_receipts_nonempty (f : EventLogRawFilter)
    (proveLog : Nat → Except String EventLog) (height : Int) (idx numEvents : Nat)
    (r : Receipt) (h : taskReceipt f proveLog height idx numEvents = .ok (some r)) :
    r.events ≠ [] := by
  cases hw : walkEvents f proveLog numEvents 0 with
  | error e => simp only [taskReceipt, hw] at h; simp at h
  | ok evs =>
    simp only [taskReceipt, hw] at h
    by_cases hlen : evs.length > 0
    · rw [if_pos hlen] at h
      by_cases heq : evs.length = numEvents
      · rw [if_pos heq] at h
        simp only [Except.ok.injEq, Option.some.injEq] at h
        subst h
        intro habs
        have hevs : evs = [] := habs
        rw [hevs] at hlen
        simp at hlen
      · rw [if_neg heq] at h; simp at h
    · rw [if_neg hlen] at h; simp at h

/-- Witness for the amended C3: a concrete fetch-stage receipt with one
matched event is returned non-empty. -/
theorem fetch_receipts_nonempty_witness :
    taskReceipt ⟨[7], [1], [2], 0⟩
        (fun _ => .ok ⟨[7], [[1], [2], [3]], [[4]]⟩) 100 0 1 =
      .ok (some ⟨0, 100, [⟨[2], 3, [4]⟩]⟩) ∧
    (⟨0, 100, [⟨[2], 3, [4]⟩]⟩ : Receipt).events ≠ [] := by
  constructor
  · rfl
  · exact fetch_receipts_nonempty ⟨[7], [1], [2], 0⟩
      (fun _ => .ok ⟨[7], [[1], [2], [3]], [[4]]⟩) 100 0 1 _ (by rfl)

/-! ## The receive pipeline (receiver.go lines 276-634)

The orchestrator state is `next` (next height to emit).  Notifications
are drained into a batch whose heights must be `next, next+1, ...`
(line 421; a mismatch reconnects and abandons the batch).  One fan-out
task per entry fetches the block data (modelled by the `fetch` oracle;
a task whose retries are exhausted yields `none`).  Completed batches
are sorted stably by height (line 621) and only entries whose height
equals `next + i` at sorted position `i` are pushed into the
block-result channel (lines 624-628).  The drain arm (lines 372-398)
verifies, updates and delivers blocks in queue order, advancing `next`
by one per delivered block; a verification failure reconnects (keeping
`next`), an `Update` failure is fatal. -/

/-- A block result (`res` of receiveLoop): the fields the ordering
argument needs — height and extracted receipts. -/
structure BlockRes where
  height : Int
  receipts : List Receipt
  deriving Repr, DecidableEq

/-- Comparison used by `sort.SliceStable` (line 621-623). -/
def heightLe (a b : BlockRes) : Prop := a.height ≤ b.height

instance : DecidableRel heightLe := fun a b => Int.decLe a.height b.height

instance : IsTotal BlockRes heightLe := ⟨fun a b => Int.le_total a.height b.height⟩

instance : IsTrans BlockRes heightLe := ⟨fun _ _ _ => Int.le_trans⟩

/-- `[a, a+1, ..., a+n-1]` as integers. -/
def intRange (a : Int) (n : Nat) : List Int :=
  (List.range n).map (fun i : Nat => a + (i : Int))

/-- The push loop of lines 624-628: walk the sorted results with index
`i`, forwarding exactly those whose height equals `next + i`. -/
def pushLoop (next : Int) : Nat → List BlockRes → List BlockRes
  | _, [] => []
  | i, d :: rest =>
    (if d.height = next + (i : Int) then [d] else []) ++ pushLoop next (i + 1) rest

/-- Lines 612-629: drop the `nil` entries of failed tasks, sort stably
by ascending height, and run the push loop from index 0. -/
def forwardBatch (next : Int) (brs : List (Option BlockRes)) : List BlockRes :=
  pushLoop next 0 (List.insertionSort heightLe (brs.filterMap id))

/-- The height check of lines 417-427: every notification drained into
the batch must have height `next + i`; on a mismatch the loop reconnects
and the batch is abandoned. -/
def contiguousFrom (next : Int) : List Int → Bool
  | [] => true
  | h :: rest => decide (h = next) && contiguousFrom (next + 1) rest

/-- One batch round of the `default` select arm (lines 399-630): check
the notification heights, run one task per height (`fetch`, `none` after
exhausted retries), and forward the sorted contiguous prefix. -/
def processBatch (fetch : Int → Option (List Receipt)) (next : Int) (hs : List Int) :
    List BlockRes :=
  if contiguousFrom next hs then
    forwardBatch next (hs.map (fun h => (fetch h).map (fun rs => BlockRes.mk h rs)))
  else []

/-- How a run of the drain arm (lines 372-398) ends. -/
inductive DrainStatus where
  | drained
  | reconnect
  | fatal (e : String)
  deriving Repr, DecidableEq

/-- The drain arm of lines 372-398, parametric in the verifier type and
in oracles for `Verify` (its `(ok, err)` pair) and `Update`
(`verifier.go` is not in this tree): with a verifier, a failed `Verify`
breaks with a reconnect and an unchanged `next`; a failed `Update`
returns the error (fatal); otherwise the block is delivered and `next`
advances by one.  Without a verifier every queued block is delivered. -/
def drain {V : Type} (verify : V → BlockRes → Bool × Option String)
    (update : V → BlockRes → Except String V) :
    Option V → Int → List BlockRes → Option V × Int × List BlockRes × DrainStatus
  | vr?, next, [] => (vr?, next, [], .drained)
  | some vr, next, br :: rest =>
    match verify vr br with
    | (ok, err) =>
      if ok = false ∨ err ≠ none then (some vr, next, [], .reconnect)
      else
        match update vr br with
        | .error e => (some vr, next, [], .fatal e)
        | .ok vr2 =>
          match drain verify update (some vr2) (next + 1) rest with
          | (v2, n2, ds, st) => (v2, n2, br :: ds, st)
  | none, next, br :: rest =>
    match drain verify update none (next + 1) rest with
    | (v2, n2, ds, st) => (v2, n2, br :: ds, st)

/-- A sequential run of the pipeline: each round forms a batch, pushes
its contiguous prefix and drains it.  A fatal drain stops the run;
reconnect rounds continue with the same `next` (their batch was
cleared).  Returns the blocks delivered to the callback, in order. -/
def runPipeline {V : Type} (fetch : Int → Option (List Receipt))
    (verify : V → BlockRes → Bool × Option String)
    (update : V → BlockRes → Except String V) :
    Option V → Int → List (List Int) → List BlockRes
  | _, _, [] => []
  | vr?, next, hs :: batches =>
    match drain verify update vr? next (processBatch fetch next hs) with
    | (v2, n2, ds, st) =>
      match st with
      | .fatal _ => ds
      | _ => ds ++ runPipeline fetch verify update v2 n2 batches

theorem intRange_length (a : Int) (n : Nat) : (intRange a n).length = n := by
  simp [intRange]

theorem intRange_succ (a : Int) (n : Nat) :
    intRange a (n + 1) = a :: intRange (a + 1) n := by
  simp only [intRange, List.range_succ_eq_map, List.map_cons, List.map_map]
  congr 1
  · simp
  · apply List.map_congr_left
    intro i _
    simp only [Function.comp_apply]
    push_cast
    ring

theorem intRange_append (a : Int) (m n : Nat) :
    intRange a m ++ intRange (a + (m : Int)) n = intRange a (m + n) := by
  induction m generalizing a with
  | zero => simp [intRange]
  | succ k ih =>
    have h1 : k + 1 + n = (k + n) + 1 := by omega
    rw [intRange_succ, h1, intRange_succ, List.cons_append]
    congr 1
    have h2 : a + ((k + 1 : Nat) : Int) = (a + 1) + (k : Int) := by push_cast; ring
    rw [h2, ih (a + 1)]

theorem mem_intRange {x a : Int} {n : Nat} (h : x ∈ intRange a n) :
    a ≤ x ∧ x < a + (n : Int) := by
  simp only [intRange, List.mem_map, List.mem_range] at h
  obtain ⟨i, hi, rfl⟩ := h
  omega

theorem intRange_nodup (a : Int) (n : Nat) : (intRange a n).Nodup := by
  refine List.Nodup.map ?_ (List.nodup_range n)
  intro i j hij
  have h : a + (i : Int) = a + (j : Int) := hij
  omega

/-- If every element of a sorted, duplicate-free result list sits
strictly above its slot, the push loop forwards nothing. -/
theorem pushLoop_eq_nil (s : List BlockRes) :
    ∀ (next : Int) (i : Nat), List.Sorted heightLe s →
      ((s.map BlockRes.height).Nodup) →
      (∀ d ∈ s, next + (i : Int) < d.height) →
      pushLoop next i s = [] := by
  induction s with
  | nil => intro next i _ _ _; rfl
  | cons d rest ih =>
    intro next i hsort hnd hbound
    have hd : next + (i : Int) < d.height := hbound d (by simp)
    have hne : ¬(d.height = next + (i : Int)) := by omega
    simp only [pushLoop, if_neg hne, List.nil_append]
    apply ih next (i + 1) hsort.of_cons (by simpa using hnd.of_cons)
    intro e he
    have hle : heightLe d e := List.rel_of_sorted_cons hsort e he
    have hne2 : d.height ≠ e.height := by
      intro hcontra
      have : d.height ∈ rest.map BlockRes.height := by
        simp only [List.mem_map]
        exact ⟨e, he, hcontra.symm⟩
      simp only [List.map_cons, List.nodup_cons] at hnd
      exact hnd.1 this
    have : d.height < e.height := lt_of_le_of_ne hle hne2
    push_cast
    omega

/-- The push loop on a sorted, duplicate-free list bounded below by its
first slot forwards a list of consecutive heights starting at the slot,
drawn from the input. -/
theorem pushLoop_spec (s : List BlockRes) :
    ∀ (next : Int) (i : Nat), List.Sorted heightLe s →
      ((s.map BlockRes.height).Nodup) →
      (∀ d ∈ s, next + (i : Int) ≤ d.height) →
      (pushLoop next i s).map BlockRes.height =
          intRange (next + (i : Int)) (pushLoop next i s).length ∧
        ∀ d ∈ pushLoop next i s, d ∈ s := by
  induction s with
  | nil => intro next i _ _ _; exact ⟨rfl, by simp [pushLoop]⟩
  | cons d rest ih =>
    intro next i hsort hnd hbound
    have hrest_gt : ∀ e ∈ rest, d.height < e.height := by
      intro e he
      have hle : heightLe d e := List.rel_of_sorted_cons hsort e he
      have hne2 : d.height ≠ e.height := by
        intro hcontra
        have : d.height ∈ rest.map BlockRes.height := by
          simp only [List.mem_map]
          exact ⟨e, he, hcontra.symm⟩
        simp only [List.map_cons, List.nodup_cons] at hnd
        exact hnd.1 this
      exact lt_of_le_of_ne hle hne2
    by_cases heq : d.height = next + (i : Int)
    · simp only [pushLoop, if_pos heq, List.singleton_append]
      have hbound2 : ∀ e ∈ rest, next + ((i + 1 : Nat) : Int) ≤ e.height := by
        intro e he
        have := hrest_gt e he
        push_cast
        omega
      obtain ⟨h1, h2⟩ := ih next (i + 1) hsort.of_cons (by simpa using hnd.of_cons) hbound2
      constructor
      · simp only [List.map_cons, List.length_cons, h1, heq]
        rw [intRange_succ]
        congr 1
        push_cast
        ring_nf
      · intro x hx
        rcases List.mem_cons.mp hx with h | h
        · simp [h]
        · exact List.mem_cons_of_mem d (h2 x h)
    · simp only [pushLoop, if_neg heq, List.nil_append]
      have hnil : pushLoop next (i + 1) rest = [] := by
        apply pushLoop_eq_nil rest next (i + 1) hsort.of_cons (by simpa using hnd.of_cons)
        intro e he
        have hdlow : next + (i : Int) < d.height :=
          lt_of_le_of_ne (hbound d (by simp)) (fun hc => heq hc.symm)
        have := hrest_gt e he
        push_cast
        omega
      rw [hnil]
      exact ⟨rfl, by simp⟩

/-- After the stable sort, the forwarded results have consecutive
heights starting at `next`, and every forwarded result comes from the
batch. -/
theorem forwardBatch_spec (next : Int) (brs : List (Option BlockRes))
    (hnd : ((brs.filterMap id).map BlockRes.height).Nodup)
    (hlo : ∀ d ∈ brs.filterMap id, next ≤ d.height) :
    (forwardBatch next brs).map BlockRes.height =
        intRange next (forwardBatch next brs).length ∧
      ∀ d ∈ forwardBatch next brs, d ∈ brs.filterMap id := by
  have hperm : List.Perm (List.insertionSort heightLe (brs.filterMap id)) (brs.filterMap id) :=
    List.perm_insertionSort heightLe (brs.filterMap id)
  have hsort : List.Sorted heightLe (List.insertionSort heightLe (brs.filterMap id)) :=
    List.sorted_insertionSort heightLe (brs.filterMap id)
  have hnd2 : ((List.insertionSort heightLe (brs.filterMap id)).map BlockRes.height).Nodup :=
    ((hperm.map BlockRes.height).nodup_iff).mpr hnd
  have hlo2 : ∀ d ∈ List.insertionSort heightLe (brs.filterMap id),
      next + ((0 : Nat) : Int) ≤ d.height := by
    intro d hd
    simpa using hlo d (hperm.mem_iff.mp hd)
  obtain ⟨h1, h2⟩ := pushLoop_spec (List.insertionSort heightLe (brs.filterMap id))
    next 0 hsort hnd2 hlo2
  constructor
  · simpa using h1
  · intro d hd
    exact hperm.mem_iff.mp (h2 d hd)

/-- The notification-height check: a batch that passes is exactly the
consecutive heights `next, next+1, ...`. -/
theorem contiguousFrom_eq_intRange (hs : List Int) :
    ∀ next, contiguousFrom next hs = true → hs = intRange next hs.length := by
  induction hs with
  | nil => intro next _; rfl
  | cons h rest ih =>
    intro next hc
    simp only [contiguousFrom, Bool.and_eq_true, decide_eq_true_eq] at hc
    obtain ⟨rfl, hc2⟩ := hc
    rw [List.length_cons, intRange_succ]
    exact congrArg (h :: ·) (ih (h + 1) hc2)

/-- The per-height task construction: every surviving entry records its
own height and the receipts its `fetch` produced. -/
theorem batch_entries_spec (fetch : Int → Option (List Receipt)) (hs : List Int) :
    ∀ d ∈ (hs.map (fun h => (fetch h).map (fun rs => BlockRes.mk h rs))).filterMap id,
      d.height ∈ hs ∧ fetch d.height = some d.receipts := by
  induction hs with
  | nil => intro d hd; simp at hd
  | cons h rest ih =>
    intro d hd
    simp only [List.map_cons, List.filterMap_cons] at hd
    cases hf : fetch h with
    | none =>
      rw [hf] at hd
      simp only [Option.map_none'] at hd
      obtain ⟨hmem, hfd⟩ := ih d hd
      exact ⟨List.mem_cons_of_mem h hmem, hfd⟩
    | some rs =>
      rw [hf] at hd
      simp only [Option.map_some'] at hd
      rcases List.mem_cons.mp hd with hh | hh
      · subst hh
        exact ⟨by simp, by simpa using hf⟩
      · obtain ⟨hmem, hfd⟩ := ih d hh
        exact ⟨List.mem_cons_of_mem h hmem, hfd⟩

/-- The heights of the surviving entries form a sublist of the batch
heights. -/
theorem batch_heights_sublist (fetch : Int → Option (List Receipt)) (hs : List Int) :
    List.Sublist
      (((hs.map (fun h => (fetch h).map (fun rs => BlockRes.mk h rs))).filterMap id).map
        BlockRes.height) hs := by
  induction hs with
  | nil => simp
  | cons h rest ih =>
    simp only [List.map_cons, List.filterMap_cons]
    cases hf : fetch h with
    | none => simpa using ih.cons h
    | some rs =>
      simp only [Option.map_some', List.map_cons]
      exact ih.cons₂ h

/-- One batch round forwards blocks with consecutive heights from
`next`, each carrying exactly the receipts its fetch produced. -/
theorem processBatch_spec (fetch : Int → Option (List Receipt)) (next : Int)
    (hs : List Int) :
    (processBatch fetch next hs).map BlockRes.height =
        intRange next (processBatch fetch next hs).length ∧
      ∀ d ∈ processBatch fetch next hs, fetch d.height = some d.receipts := by
  unfold processBatch
  by_cases hc : contiguousFrom next hs = true
  · rw [if_pos hc]
    have hrange := contiguousFrom_eq_intRange hs next hc
    set l := hs.map (fun h => (fetch h).map (fun rs => BlockRes.mk h rs)) with hl
    have hnd : ((l.filterMap id).map BlockRes.height).Nodup := by
      apply List.Nodup.sublist (batch_heights_sublist fetch hs)
      rw [hrange]
      exact intRange_nodup next hs.length
    have hlo : ∀ d ∈ l.filterMap id, next ≤ d.height := by
      intro d hd
      obtain ⟨hmem, _⟩ := batch_entries_spec fetch hs d hd
      rw [hrange] at hmem
      exact (mem_intRange hmem).1
    obtain ⟨h1, h2⟩ := forwardBatch_spec next l hnd hlo
    refine ⟨h1, ?_⟩
    intro d hd
    exact (batch_entries_spec fetch hs d (h2 d hd)).2
  · rw [if_neg hc]
    exact ⟨rfl, by simp⟩

theorem drain_nil {V : Type} (verify : V → BlockRes → Bool × Option String)
    (update : V → BlockRes → Except String V) (vr? : Option V) (next : Int) :
    drain verify update vr? next [] = (vr?, next, [], .drained) := by
  cases vr? <;> rfl

theorem drain_none_cons {V : Type} (verify : V → BlockRes → Bool × Option String)
    (update : V → BlockRes → Except String V) (next : Int) (br : BlockRes)
    (rest : List BlockRes) :
    drain verify update (none : Option V) next (br :: rest) =
      ((drain verify update none (next + 1) rest).1,
        (drain verify update none (next + 1) rest).2.1,
        br :: (drain verify update none (next + 1) rest).2.2.1,
        (drain verify update none (next + 1) rest).2.2.2) := rfl

theorem drain_some_cons {V : Type} (verify : V → BlockRes → Bool × Option String)
    (update : V → BlockRes → Except String V) (vr : V) (next : Int) (br : BlockRes)
    (rest : List BlockRes) :
    drain verify update (some vr) next (br :: rest) =
      if (verify vr br).1 = false ∨ (verify vr br).2 ≠ none then
        (some vr, next, [], .reconnect)
      else
        match update vr br with
        | .error e => (some vr, next, [], .fatal e)
        | .ok vr2 =>
          ((drain verify update (some vr2) (next + 1) rest).1,
            (drain verify update (some vr2) (next + 1) rest).2.1,
            br :: (drain verify update (some vr2) (next + 1) rest).2.2.1,
            (drain verify update (some vr2) (next + 1) rest).2.2.2) := rfl

/-- The drain arm delivers a prefix of its queue: delivered heights are
consecutive from `next`, `next` advances by exactly one per delivered
block, and every delivered block came from the queue. -/
theorem drain_spec {V : Type} (verify : V → BlockRes → Bool × Option String)
    (update : V → BlockRes → Except String V) (out : List BlockRes) :
    ∀ (vr? : Option V) (next : Int),
      out.map BlockRes.height = intRange next out.length →
      ((drain verify update vr? next out).2.2.1.map BlockRes.height =
          intRange next (drain verify update vr? next out).2.2.1.length) ∧
        (drain verify update vr? next out).2.1 =
          next + ((drain verify update vr? next out).2.2.1.length : Int) ∧
        ∀ d ∈ (drain verify update vr? next out).2.2.1, d ∈ out := by
  induction out with
  | nil =>
    intro vr? next _
    rw [drain_nil]
    refine ⟨rfl, by simp, by simp⟩
  | cons br rest ih =>
    intro vr? next h
    rw [List.length_cons, List.map_cons, intRange_succ, List.cons.injEq] at h
    obtain ⟨hbr, hrest⟩ := h
    cases vr? with
    | none =>
      rw [drain_none_cons]
      obtain ⟨h1, h2, h3⟩ := ih none (next + 1) hrest
      refine ⟨?_, ?_, ?_⟩
      · simp only [List.map_cons, List.length_cons, h1, hbr, intRange_succ]
      · simp only [List.length_cons, h2]
        push_cast
        ring
      · intro d hd
        rcases List.mem_cons.mp hd with hd | hd
        · simp [hd]
        · exact List.mem_cons_of_mem br (h3 d hd)
    | some vr =>
      rw [drain_some_cons]
      by_cases hv : (verify vr br).1 = false ∨ (verify vr br).2 ≠ none
      · rw [if_pos hv]
        refine ⟨rfl, by simp, by simp⟩
      · rw [if_neg hv]
        cases hu : update vr br with
        | error e =>
          refine ⟨rfl, by simp, by simp⟩
        | ok vr2 =>
          obtain ⟨h1, h2, h3⟩ := ih (some vr2) (next + 1) hrest
          refine ⟨?_, ?_, ?_⟩
          · simp only [List.map_cons, List.length_cons, h1, hbr, intRange_succ]
          · simp only [List.length_cons, h2]
            push_cast
            ring
          · intro d hd
            rcases List.mem_cons.mp hd with hd | hd
            · simp [hd]
            · exact List.mem_cons_of_mem br (h3 d hd)

theorem runPipeline_cons {V : Type} (fetch : Int → Option (List Receipt))
    (verify : V → BlockRes → Bool × Option String)
    (update : V → BlockRes → Except String V) (vr? : Option V) (next : Int)
    (hs : List Int) (bs : List (List Int)) :
    runPipeline fetch verify update vr? next (hs :: bs) =
      (match (drain verify update vr? next (processBatch fetch next hs)).2.2.2 with
       | .fatal _ => (drain verify update vr? next (processBatch fetch next hs)).2.2.1
       | _ => (drain verify update vr? next (processBatch fetch next hs)).2.2.1 ++
           runPipeline fetch verify update
             (drain verify update vr? next (processBatch fetch next hs)).1
             (drain verify update vr? next (processBatch fetch next hs)).2.1 bs) := rfl

/-- Delivered block heights over a whole run are exactly
`next, next+1, ...` — consecutive, none skipped, none repeated. -/
theorem runPipeline_heights {V : Type} (fetch : Int → Option (List Receipt))
    (verify : V → BlockRes → Bool × Option String)
    (update : V → BlockRes → Except String V) (batches : List (List Int)) :
    ∀ (vr? : Option V) (next : Int),
      (runPipeline fetch verify update vr? next batches).map BlockRes.height =
        intRange next (runPipeline fetch verify update vr? next batches).length := by
  induction batches with
  | nil => intro vr? next; rfl
  | cons hs bs ih =>
    intro vr? next
    obtain ⟨hph, _⟩ := processBatch_spec fetch next hs
    obtain ⟨hd1, hd2, _⟩ := drain_spec verify update (processBatch fetch next hs) vr? next hph
    rw [runPipeline_cons]
    cases hst : (drain verify update vr? next (processBatch fetch next hs)).2.2.2 with
    | fatal e => exact hd1
    | drained =>
      rw [List.map_append, List.length_append, hd1, ih _ _, hd2, intRange_append]
    | reconnect =>
      rw [List.map_append, List.length_append, hd1, ih _ _, hd2, intRange_append]

/-- Every delivered block's receipts are exactly what its fetch
produced. -/
theorem runPipeline_mem {V : Type} (fetch : Int → Option (List Receipt))
    (verify : V → BlockRes → Bool × Option String)
    (update : V → BlockRes → Except String V) (batches : List (List Int)) :
    ∀ (vr? : Option V) (next : Int) (d : BlockRes),
      d ∈ runPipeline fetch verify update vr? next batches →
      fetch d.height = some d.receipts := by
  induction batches with
  | nil => intro vr? next d hd; simp [runPipeline] at hd
  | cons hs bs ih =>
    intro vr? next d hd
    obtain ⟨hph, hpm⟩ := processBatch_spec fetch next hs
    obtain ⟨_, _, hd3⟩ := drain_spec verify update (processBatch fetch next hs) vr? next hph
    rw [runPipeline_cons] at hd
    cases hst : (drain verify update vr? next (processBatch fetch next hs)).2.2.2 with
    | fatal e =>
      rw [hst] at hd
      exact hpm d (hd3 d hd)
    | drained =>
      rw [hst] at hd
      rcases List.mem_append.mp hd with hmem | hmem
      · exact hpm d (hd3 d hmem)
      · exact ih _ _ d hmem
    | reconnect =>
      rw [hst] at hd
      rcases List.mem_append.mp hd with hmem | hmem
      · exact hpm d (hd3 d hmem)
      · exact ih _ _ d hmem

/-- Strict `(height, receiptIndex)` order on receipts. -/
def receiptLt (a b : Receipt) : Prop :=
  a.height < b.height ∨ (a.height = b.height ∧ a.index < b.index)

/-- Flattening blocks of consecutive heights whose receipts carry the
block height and strictly ascending indexes yields a stream strictly
ascending in `(height, receiptIndex)`. -/
theorem flat_pairwise (blocks : List BlockRes) :
    ∀ a : Int, blocks.map BlockRes.height = intRange a blocks.length →
      (∀ b ∈ blocks, (∀ r ∈ b.receipts, r.height = b.height) ∧
        b.receipts.Pairwise (fun x y => x.index < y.index)) →
      (blocks.flatMap BlockRes.receipts).Pairwise receiptLt := by
  induction blocks with
  | nil => intro a _ _; simp
  | cons b rest ih =>
    intro a hh hr
    rw [List.length_cons, List.map_cons, intRange_succ, List.cons.injEq] at hh
    obtain ⟨hbh, hrest⟩ := hh
    obtain ⟨hrh, hri⟩ := hr b (by simp)
    rw [List.flatMap_cons, List.pairwise_append]
    refine ⟨?_, ?_, ?_⟩
    · refine hri.imp_of_mem ?_
      intro x y hx hy hlt
      right
      exact ⟨by rw [hrh x hx, hrh y hy], hlt⟩
    · exact ih (a + 1) hrest (fun b2 hb2 => hr b2 (List.mem_cons_of_mem b hb2))
    · intro x hx y hy
      left
      obtain ⟨b2, hb2, hyb2⟩ := List.mem_flatMap.mp hy
      have hy2 : y.height = b2.height := (hr b2 (List.mem_cons_of_mem b hb2)).1 y hyb2
      have hb2mem : b2.height ∈ intRange (a + 1) rest.length := by
        rw [← hrest]
        exact List.mem_map_of_mem BlockRes.height hb2
      have := (mem_intRange hb2mem).1
      rw [hrh x hx, hbh, hy2]
      omega

/-- Claim C1: over any sequential run of the receive pipeline the
delivered blocks have heights exactly `next0, next0+1, ...` — strictly
ascending, no height skipped, none delivered twice (after a completed
batch is sorted, only the contiguous prefix of heights starting at
`next` is forwarded, and the drain arm advances `next` by exactly one
per delivered block) — and, provided each fetched block's receipts carry
their height with strictly ascending receipt indexes, the delivered
receipt stream is strictly ascending in `(height, receiptIndex)`. -/
theorem receive_pipeline_ordering {V : Type} (fetch : Int → Option (List Receipt))
    (verify : V → BlockRes → Bool × Option String)
    (update : V → BlockRes → Except String V) (vr? : Option V) (next0 : Int)
    (batches : List (List Int))
    (hfetch : ∀ h rs, fetch h = some rs →
      (∀ r ∈ rs, r.height = h) ∧ rs.Pairwise (fun x y => x.index < y.index)) :
    (runPipeline fetch verify update vr? next0 batches).map BlockRes.height =
        intRange next0 (runPipeline fetch verify update vr? next0 batches).length ∧
      ((runPipeline fetch verify update vr? next0 batches).flatMap
          BlockRes.receipts).Pairwise receiptLt := by
  refine ⟨runPipeline_heights fetch verify update batches vr? next0, ?_⟩
  apply flat_pairwise _ next0 (runPipeline_heights fetch verify update batches vr? next0)
  intro b hb
  have hf := runPipeline_mem fetch verify update batches vr? next0 b hb
  obtain ⟨h1, h2⟩ := hfetch b.height b.receipts hf
  exact ⟨h1, h2⟩

/-- Witness for C1: a concrete two-round run — heights 100 and 101 in
one batch, 102 in the next, each block carrying one receipt — delivers
heights `[100, 101, 102]` in order with ascending receipt pairs. -/
theorem receive_pipeline_ordering_witness :
    runPipeline (V := Unit) (fun h => some [⟨0, h, []⟩])
        (fun _ _ => (true, none)) (fun vr _ => .ok vr) none 100
        [[100, 101], [102]] =
      [⟨100, [⟨0, 100, []⟩]⟩, ⟨101, [⟨0, 101, []⟩]⟩, ⟨102, [⟨0, 102, []⟩]⟩] ∧
    (runPipeline (V := Unit) (fun h => some [⟨0, h, []⟩])
        (fun _ _ => (true, none)) (fun vr _ => .ok vr) none 100
        [[100, 101], [102]]).map BlockRes.height =
      intRange 100 (runPipeline (V := Unit) (fun h => some [⟨0, h, []⟩])
        (fun _ _ => (true, none)) (fun vr _ => .ok vr) none 100
        [[100, 101], [102]]).length := by
  constructor
  · rfl
  · exact (receive_pipeline_ordering (V := Unit) (fun h => some [⟨0, h, []⟩])
      (fun _ _ => (true, none)) (fun vr _ => .ok vr) none 100 [[100, 101], [102]]
      (fun h rs heq => by
        cases heq
        exact ⟨fun r hr => by
          rcases List.mem_singleton.mp hr with rfl
          rfl, by simp⟩)).1

/-- Claim C4: in the drain arm of the main receive loop a header
verification failure (`Verify` returning `false` or an error) never
terminates the pipeline — it triggers a reconnect signal and leaves
`next` unchanged, so the loop continues from the same height (a
reconnect status makes `runPipeline` proceed with the following rounds,
by `runPipeline_cons`) — whereas an `Update` failure after a successful
`Verify` ends the drain with a fatal error. -/
theorem verify_failure_reconnects_update_failure_fatal {V : Type}
    (verify : V → BlockRes → Bool × Option String)
    (update : V → BlockRes → Except String V) (vr : V) (next : Int)
    (br : BlockRes) (rest : List BlockRes) :
    (((verify vr br).1 = false ∨ (verify vr br).2 ≠ none) →
      drain verify update (some vr) next (br :: rest) =
        (some vr, next, [], .reconnect)) ∧
    (∀ e, (verify vr br).1 = true → (verify vr br).2 = none →
      update vr br = .error e →
      drain verify update (some vr) next (br :: rest) =
        (some vr, next, [], .fatal e)) := by
  constructor
  · intro hv
    rw [drain_some_cons, if_pos hv]
  · intro e hok herr hu
    rw [drain_some_cons, if_neg (by simp [hok, herr]), hu]

/-- Witness for C4: concrete drains — a failing `Verify` yields a
reconnect with `next` still 100; a failing `Update` after a clean
`Verify` is fatal. -/
theorem verify_failure_reconnects_update_failure_fatal_witness :
    drain (V := Unit) (fun _ _ => (false, none)) (fun vr _ => .ok vr)
        (some ()) 100 [⟨100, []⟩] = (some (), 100, [], .reconnect) ∧
    drain (V := Unit) (fun _ _ => (true, none)) (fun _ _ => .error ("update failed"))
        (some ()) 100 [⟨100, []⟩] = (some (), 100, [], .fatal ("update failed")) := by
  constructor
  · exact (verify_failure_reconnects_update_failure_fatal
      (fun _ _ => (false, none)) (fun vr _ => .ok vr) () 100 ⟨100, []⟩ []).1
      (Or.inl rfl)
  · exact (verify_failure_reconnects_update_failure_fatal
      (fun _ _ => (true, none)) (fun _ _ => .error ("update failed")) () 100
      ⟨100, []⟩ []).2 ("update failed") rfl rfl rfl

/-! ## The light-client verifier cache (client.go lines 492-507,
receiver.go lines 127-167)

`verifier.go` is not in this tree: the `Verifier` record, its `Next`
accessor and `Update` are modelled from the spec (§3 "Verifier state",
§4.3).  `Verify` stays an oracle.  SHA3-256, the RLP/BC codecs and the
RPC transport are oracles too. -/

/-- Modelled from the spec: block-header fields used by the core —
`{height, prevHash, votesHash, nextValidatorsHash, result}`. -/
structure BlockHeader where
  height : Int
  prevHash : Bytes
  votesHash : Bytes
  nextValidatorsHash : Bytes
  result : Bytes
  deriving Repr, DecidableEq

/-- Modelled from the spec: verifier state `{next, nextValidatorsHash,
validatorsByHash}`; the cache is an association list keyed by hash. -/
structure Verifier where
  next : Int
  nextValidatorsHash : Bytes
  validators : List (Bytes × List Bytes)
  deriving Repr, DecidableEq

/-- Modelled from the spec: `Verifier.Next()` returns the height of the
next header to verify. -/
def Verifier.Next (vr : Verifier) : Int := vr.next

/-- Modelled from the spec: `Verifier.Validators(hash)` looks the hash
up in the cache (empty when absent). -/
def Verifier.Validators (vr : Verifier) (hash : Bytes) : List Bytes :=
  match vr.validators.find? (fun hv => hv.1 = hash) with
  | some hv => hv.2
  | none => []

/-- Modelled from the spec (§4.3): `Update` sets `next = header.height
+ 1` and `nextValidatorsHash = header.nextValidatorsHash`, inserting the
given validator list under that hash when it is non-empty. -/
def Verifier.Update (vr : Verifier) (header : BlockHeader)
    (nextValidators : List Bytes) : Verifier :=
  { vr with
    next := header.height + 1
    nextValidatorsHash := header.nextValidatorsHash
    validators :=
      if nextValidators.length > 0 then
        (header.nextValidatorsHash, nextValidators) :: vr.validators
      else vr.validators }

/-- client.go lines 492-507: fetch the raw data by hash, reject it
unless its SHA3-256 equals the requested hash, then decode the
validator list. -/
def getValidatorsByHash (sha3 : Bytes → Bytes)
    (decodeAddrs : Bytes → Option (List Bytes))
    (getDataByHash : Bytes → Except String Bytes) (hash : Bytes) :
    Except String (List Bytes) :=
  match getDataByHash hash with
  | .error e => .error e
  | .ok data =>
    if hash = sha3 data then
      match decodeAddrs data with
      | some validators => .ok validators
      | none => .error ("Unmarshal Validators")
    else .error ("invalid data")

/-- receiver.go lines 127-156: bootstrap the verifier — fetch and check
the validators of the checkpoint hash, seed the cache with them, then
verify the checkpoint header (`!ok` overrides the error with
`verification failed`). -/
def newVerifer (sha3 : Bytes → Bytes) (decodeAddrs : Bytes → Option (List Bytes))
    (getDataByHash : Bytes → Except String Bytes)
    (getHeader : Int → Except String BlockHeader)
    (getVotes : Int → Except String Bytes)
    (verify : Verifier → BlockHeader → Bytes → Bool × Option String)
    (optsHeight : Int) (optsValidatorsHash : Bytes) : Except String Verifier :=
  match getValidatorsByHash sha3 decodeAddrs getDataByHash optsValidatorsHash with
  | .error e => .error e
  | .ok validators =>
    let vr : Verifier :=
      { next := optsHeight
        nextValidatorsHash := optsValidatorsHash
        validators := [(optsValidatorsHash, validators)] }
    match getHeader vr.next with
    | .error e => .error e
    | .ok header =>
      match getVotes vr.next with
      | .error e => .error e
      | .ok votes =>
        match verify vr header votes with
        | (ok, err) =>
          match (if ok = false then some ("verification failed") else err) with
          | some e => .error e
          | none => .ok vr

/-- Every cache entry is certified: its key is the SHA3-256 of some
fetched byte string that decodes to its validator list. -/
def CacheOK (sha3 : Bytes → Bytes) (decodeAddrs : Bytes → Option (List Bytes))
    (cache : List (Bytes × List Bytes)) : Prop :=
  ∀ hv ∈ cache, ∃ data, hv.1 = sha3 data ∧ decodeAddrs data = some hv.2

/-- Claim C7: `getValidatorsByHash` succeeds only when the fetched
data's SHA3-256 equals the requested hash (and the data decodes to the
returned list); consequently the bootstrap cache built by `newVerifer`
satisfies `SHA3-256(validatorsBytes) = validatorsHash` for its entry,
and an `Update` whose non-empty validator list was obtained through
`getValidatorsByHash` on the header's `nextValidatorsHash` preserves the
invariant for every insertion. -/
theorem validators_cache_hash_invariant (sha3 : Bytes → Bytes)
    (decodeAddrs : Bytes → Option (List Bytes))
    (getDataByHash : Bytes → Except String Bytes) :
    (∀ hash v, getValidatorsByHash sha3 decodeAddrs getDataByHash hash = .ok v →
      ∃ data, getDataByHash hash = .ok data ∧ hash = sha3 data ∧
        decodeAddrs data = some v) ∧
    (∀ getHeader getVotes verify optsHeight optsValidatorsHash vr,
      newVerifer sha3 decodeAddrs getDataByHash getHeader getVotes verify
          optsHeight optsValidatorsHash = .ok vr →
      CacheOK sha3 decodeAddrs vr.validators) ∧
    (∀ (vr : Verifier) (header : BlockHeader) (nv : List Bytes),
      CacheOK sha3 decodeAddrs vr.validators →
      (nv = [] ∨ getValidatorsByHash sha3 decodeAddrs getDataByHash
          header.nextValidatorsHash = .ok nv) →
      CacheOK sha3 decodeAddrs (vr.Update header nv).validators) := by
  have hmain : ∀ hash v,
      getValidatorsByHash sha3 decodeAddrs getDataByHash hash = .ok v →
      ∃ data, getDataByHash hash = .ok data ∧ hash = sha3 data ∧
        decodeAddrs data = some v := by
    intro hash v h
    cases hdata : getDataByHash hash with
    | error e => simp only [getValidatorsByHash, hdata] at h; simp at h
    | ok data =>
      simp only [getValidatorsByHash, hdata] at h
      by_cases hh : hash = sha3 data
      · rw [if_pos hh] at h
        cases hdec : decodeAddrs data with
        | none => rw [hdec] at h; simp at h
        | some validators =>
          rw [hdec] at h
          simp only [Except.ok.injEq] at h
          subst h
          exact ⟨data, rfl, hh, hdec⟩
      · rw [if_neg hh] at h; simp at h
  refine ⟨hmain, ?_, ?_⟩
  · intro getHeader getVotes verify optsHeight optsValidatorsHash vr h
    cases hval : getValidatorsByHash sha3 decodeAddrs getDataByHash optsValidatorsHash with
    | error e => simp only [newVerifer, hval] at h; simp at h
    | ok validators =>
      obtain ⟨data, _, hsha, hdec⟩ := hmain optsValidatorsHash validators hval
      cases hhd : getHeader optsHeight with
      | error e => simp only [newVerifer, hval, hhd] at h; simp at h
      | ok header =>
        cases hvt : getVotes optsHeight with
        | error e => simp only [newVerifer, hval, hhd, hvt] at h; simp at h
        | ok votes =>
          rcases hvf : verify ⟨optsHeight, optsValidatorsHash,
              [(optsValidatorsHash, validators)]⟩ header votes with ⟨ok, err⟩
          simp only [newVerifer, hval, hhd, hvt, hvf] at h
          cases hok : (if ok = false then some ("verification failed") else err) with
          | some e => simp only [hok] at h; simp at h
          | none =>
            simp only [hok] at h
            simp only [Except.ok.injEq] at h
            subst h
            intro hv hmem
            simp only [List.mem_singleton] at hmem
            subst hmem
            exact ⟨data, hsha, hdec⟩
  · intro vr header nv hcache hnv
    intro hv hmem
    simp only [Verifier.Update] at hmem
    by_cases hlen : nv.length > 0
    · rw [if_pos hlen] at hmem
      rcases List.mem_cons.mp hmem with hh | hh
      · subst hh
        rcases hnv with hnil | hok
        · subst hnil; simp at hlen
        · obtain ⟨data, _, hsha, hdec⟩ := hmain header.nextValidatorsHash nv hok
          exact ⟨data, hsha, hdec⟩
      · exact hcache hv hh
    · rw [if_neg hlen] at hmem
      exact hcache hv hmem

/-- Witness for C7: identity oracles — `getDataByHash` echoes the hash,
`sha3` is the identity, decoding wraps the bytes — so the fetch of hash
`[5]` succeeds, the bootstrap cache is certified, and an update
insertion stays certified. -/
theorem validators_cache_hash_invariant_witness :
    getValidatorsByHash id (fun d => some [d]) (fun h => .ok h) [5] = .ok [[5]] ∧
    (∃ data, (fun h => (.ok h : Except String Bytes)) [5] = .ok data ∧
      [5] = id data ∧ (fun d => some [d]) data = some [[5]]) := by
  constructor
  · rfl
  · exact (validators_cache_hash_invariant id (fun d => some [d])
      (fun h => .ok h)).1 [5] [[5]] rfl

/-! ## syncVerifier (receiver.go lines 158-274) -/

/-- A fetched sync round entry (the `res` of syncVerifier): height,
header, votes and — when the cache missed — the next validators. -/
structure SyncRes where
  height : Int
  header : BlockHeader
  votes : Bytes
  nextValidators : List Bytes
  deriving Repr, DecidableEq

/-- Comparison used by syncVerifier's `sort.SliceStable` (line 250). -/
def syncHeightLe (a b : SyncRes) : Prop := a.height ≤ b.height

instance : DecidableRel syncHeightLe := fun a b => Int.decLe a.height b.height

/-- Lines 253-267: walk the sorted round results; for each whose height
is exactly `vr.Next()`, verify (an error or `!ok` is fatal) and update. -/
def syncStep (verify : Verifier → BlockHeader → Bytes → Bool × Option String) :
    Verifier → List SyncRes → Option String × Verifier
  | vr, [] => (none, vr)
  | vr, r :: rest =>
    if vr.next = r.height then
      match verify vr r.header r.votes with
      | (ok, err) =>
        match err with
        | some e => (some e, vr)
        | none =>
          if ok then syncStep verify (vr.Update r.header r.nextValidators) rest
          else (some ("syncVerifier: invalid header"), vr)
    else syncStep verify vr rest

/-- The `for vr.Next() < height` loop of lines 184-270, with fuel (the
Go loop can spin forever when fetches keep failing): each round requests
`concurrency` heights from `vr.Next()` (counted as RPC work in the third
component), drops failed fetches, sorts by height and applies
`syncStep`. -/
def syncLoop (concurrency : Nat)
    (fetch : Int → Option (BlockHeader × Bytes × List Bytes))
    (verify : Verifier → BlockHeader → Bytes → Bool × Option String) :
    Nat → Verifier → Int → Option String × Verifier × Nat
  | 0, vr, _ => (none, vr, 0)
  | fuel + 1, vr, target =>
    if vr.next < target then
      let hs := intRange vr.next concurrency
      let sres := hs.filterMap
        (fun h => (fetch h).map (fun p => SyncRes.mk h p.1 p.2.1 p.2.2))
      match syncStep verify vr (List.insertionSort syncHeightLe sres) with
      | (some e, vr2) => (some e, vr2, hs.length)
      | (none, vr2) =>
        match syncLoop concurrency fetch verify fuel vr2 target with
        | (r, vr3, n) => (r, vr3, hs.length + n)
    else (none, vr, 0)

/-- receiver.go lines 158-167 and the loop: `syncVerifier` returns
immediately when the target equals `vr.Next()`, errors out with
`invalid target height` when `vr.Next()` is beyond the target, and
otherwise catches the verifier up round by round.  The result carries
the error (if any), the verifier state, and the number of heights for
which RPC requests were issued. -/
def syncVerifier (concurrency : Nat)
    (fetch : Int → Option (BlockHeader × Bytes × List Bytes))
    (verify : Verifier → BlockHeader → Bytes → Bool × Option String)
    (fuel : Nat) (vr : Verifier) (height : Int) :
    Option String × Verifier × Nat :=
  if height = vr.Next then (none, vr, 0)
  else if vr.Next > height then (some ("invalid target height"), vr, 0)
  else syncLoop concurrency fetch verify fuel vr height

/-- Claim C10: when the target height equals `verifier.Next()`,
`syncVerifier` returns nil immediately — no RPC request is issued and
the verifier is unchanged; when `verifier.Next()` exceeds the target it
returns the `invalid target height` error, again with no RPC issued and
the verifier unchanged. -/
theorem syncVerifier_entry_guards (concurrency : Nat)
    (fetch : Int → Option (BlockHeader × Bytes × List Bytes))
    (verify : Verifier → BlockHeader → Bytes → Bool × Option String)
    (fuel : Nat) (vr : Verifier) (height : Int) :
    (height = vr.Next →
      syncVerifier concurrency fetch verify fuel vr height = (none, vr, 0)) ∧
    (vr.Next > height →
      syncVerifier concurrency fetch verify fuel vr height =
        (some ("invalid target height"), vr, 0)) := by
  constructor
  · intro h
    unfold syncVerifier
    rw [if_pos h]
  · intro h
    unfold syncVerifier
    have hne : ¬(height = vr.Next) := by
      intro hc
      rw [hc] at h
      exact lt_irrefl _ h
    rw [if_neg hne, if_pos h]

/-- Witness for C10: a concrete verifier at height 100 — target 100
returns nil with zero requests; target 99 errors with zero requests. -/
theorem syncVerifier_entry_guards_witness :
    syncVerifier 2 (fun _ => none) (fun _ _ _ => (true, none)) 10
        ⟨100, [1], []⟩ 100 = (none, ⟨100, [1], []⟩, 0) ∧
    syncVerifier 2 (fun _ => none) (fun _ _ _ => (true, none)) 10
        ⟨100, [1], []⟩ 99 =
      (some ("invalid target height"), ⟨100, [1], []⟩, 0) := by
  constructor
  · exact (syncVerifier_entry_guards 2 (fun _ => none) (fun _ _ _ => (true, none))
      10 ⟨100, [1], []⟩ 100).1 rfl
  · exact (syncVerifier_entry_guards 2 (fun _ => none) (fun _ _ _ => (true, none))
      10 ⟨100, [1], []⟩ 99).2 (by norm_num [Verifier.Next])

/-! ## Transaction signing (client.go lines 61-83)

`SerializeJSON`, `json.Marshal`, SHA3-256 and the wallet's recoverable
ECDSA signer live outside this tree and are oracles; the
`icx_sendTransaction.` prefix, the excluded field set and the standard
base64 encoding are concrete. -/

/-- ASCII bytes of the literal `icx_sendTransaction.` (client.go
line 74). -/
def icxSendTransactionPrefix : Bytes :=
  [105, 99, 120, 95, 115, 101, 110, 100, 84, 114, 97, 110, 115, 97, 99,
   116, 105, 111, 110, 46]

/-- The field set excluded from the canonical serialization
(`txSerializeExcludes`, client.go line 61). -/
def txSerializeExcludes : List String := ["signature"]

/-- The standard base64 alphabet. -/
def base64Alphabet : List Char :=
  "ABCDEFGHIJKLMNOPQRSTUVWXYZabcdefghijklmnopqrstuvwxyz0123456789+/".toList

/-- Character of a 6-bit group. -/
def base64Char (i : Nat) : Char := base64Alphabet.getD i (Char.ofNat 65)

/-- Standard (padded) base64 of a byte string
(`base64.StdEncoding.EncodeToString`). -/
def base64StdEncode : Bytes → String
  | [] => ""
  | [b0] =>
    String.mk [base64Char (b0 / 4), base64Char (b0 % 4 * 16), '=', '=']
  | [b0, b1] =>
    String.mk [base64Char (b0 / 4), base64Char (b0 % 4 * 16 + b1 / 16),
      base64Char (b1 % 16 * 4), '=']
  | b0 :: b1 :: b2 :: rest =>
    String.mk [base64Char (b0 / 4), base64Char (b0 % 4 * 16 + b1 / 16),
      base64Char (b1 % 16 * 4 + b2 / 64), base64Char (b2 % 64)] ++
      base64StdEncode rest

/-- Modelled from the spec: `TransactionParam` (`chain/icon/types.go` is
not in this tree) — the signing-relevant fields are explicit and the
remaining request fields are an opaque payload. -/
structure TransactionParam where
  payload : Bytes
  timestamp : Option Int
  txHash : Option Bytes
  signature : Option String
  deriving Repr, DecidableEq

/-- client.go lines 63-83: stamp the timestamp, marshal to JSON,
canonically serialize excluding `signature`, prefix with
`icx_sendTransaction.`, SHA3-256 to the transaction hash, sign it and
store the base64 signature.  (On a signing error Go returns after
having already stored `TxHash`; the embedding just returns the error.) -/
def SignTransaction (now : Int)
    (jsonMarshal : TransactionParam → Except String Bytes)
    (serializeJSON : Bytes → List String → Except String Bytes)
    (sha3 : Bytes → Bytes)
    (sign : Bytes → Except String Bytes)
    (p : TransactionParam) : Except String TransactionParam :=
  let p1 := { p with timestamp := some now }
  match jsonMarshal p1 with
  | .error e => .error e
  | .ok js =>
    match serializeJSON js txSerializeExcludes with
    | .error e => .error e
    | .ok bs0 =>
      let txHash := sha3 (icxSendTransactionPrefix ++ bs0)
      match sign txHash with
      | .error e => .error e
      | .ok sig =>
        .ok { p1 with
          txHash := some txHash
          signature := some (base64StdEncode sig) }

/-- Claim C5: for every transaction parameter and wallet,
`SignTransaction` sets `TxHash` to the SHA3-256 of the canonical JSON
serialization with the `signature` field excluded, prefixed by the
literal bytes `icx_sendTransaction.`, and sets `Signature` to the
standard base64 encoding of the wallet's recoverable ECDSA signature
over that hash. -/
theorem sign_transaction_spec (now : Int)
    (jsonMarshal : TransactionParam → Except String Bytes)
    (serializeJSON : Bytes → List String → Except String Bytes)
    (sha3 : Bytes → Bytes) (sign : Bytes → Except String Bytes)
    (p : TransactionParam) (js bs0 sig : Bytes)
    (hjs : jsonMarshal { p with timestamp := some now } = .ok js)
    (hser : serializeJSON js ["signature"] = .ok bs0)
    (hsig : sign (sha3 (icxSendTransactionPrefix ++ bs0)) = .ok sig) :
    SignTransaction now jsonMarshal serializeJSON sha3 sign p =
      .ok { p with
        timestamp := some now
        txHash := some (sha3 (icxSendTransactionPrefix ++ bs0))
        signature := some (base64StdEncode sig) } := by
  simp only [SignTransaction, txSerializeExcludes, hjs, hser, hsig]

/-- Witness for C5: concrete oracles — marshalling returns the payload,
the canonical serializer is the identity, `sha3` sums the bytes modulo
256, and the wallet signs with the fixed bytes `[0, 1, 2]` whose base64
is `AAEC`. -/
theorem sign_transaction_spec_witness :
    SignTransaction 42 (fun q => .ok q.payload) (fun js _ => .ok js)
        (fun b => [b.sum % 256]) (fun _ => .ok [0, 1, 2])
        ⟨[1, 2], none, none, none⟩ =
      .ok ⟨[1, 2], some 42, some [((icxSendTransactionPrefix ++ [1, 2]).sum % 256)],
        some ("AAEC")⟩ := by
  exact sign_transaction_spec 42 (fun q => .ok q.payload) (fun js _ => .ok js)
    (fun b => [b.sum % 256]) (fun _ => .ok [0, 1, 2])
    ⟨[1, 2], none, none, none⟩ [1, 2] [1, 2] [0, 1, 2] rfl rfl rfl

/-! ## Send-and-confirm (client.go lines 122-176)

`SendTransaction` returns `(nil, err)` on every error (lines 85-91), so
the `txh` pointer is nil in every error arm of the send loop.  The
DuplicateTransactionError arm (line 144) executes `thp.Hash = *txh`,
dereferencing that nil pointer: the embedding makes the pointer an
`Option` and the dereference of `none` an explicit panic value. -/

/-- Modelled from the spec: JSON-RPC system error code of
`common/jsonrpc` (not in this tree). -/
def JsonrpcErrorCodeSystem : Int := -31000

/-- Modelled from the spec: code of a pending transaction result. -/
def JsonrpcErrorCodePending : Int := -31002

/-- Modelled from the spec: code of an executing transaction result. -/
def JsonrpcErrorCodeExecuting : Int := -31003

/-- Modelled from the spec: transaction result (status and the fields
the relay reads); `chain/icon/types.go` is not in this tree. -/
structure TxResult where
  status : Int
  deriving Repr, DecidableEq

/-- Errors surfaced by the RPC client: the sentinel
`ErrSendFailByOverflow` (mapped from the pool-overflow code), a typed
`*jsonrpc.Error` with its code and message, or any other error. -/
inductive RpcError where
  | sendFailByOverflow
  | jsonrpcError (code : Int) (message : String)
  | other (msg : String)
  deriving Repr, DecidableEq

/-- `strconv.ParseInt(re.Message[1:5], 0, 32)` (client.go line 139) for
the plain 4-digit decimal sub-codes the code relies on.  (Go's base-0
parse also accepts sign and `0x`/`0o`/`0b` prefixes, and the slice
panics when the message is shorter than 5 bytes; node sub-codes such as
`2000` are always 4 decimal digits at offset 1.) -/
def parseSubCode (msg : String) : Option Int :=
  let s := (msg.toList.drop 1).take 4
  if s.length = 4 ∧ s.all (fun c => c.isDigit) then
    some ((s.foldl (fun acc c => acc * 10 + (c.toNat - 48)) 0 : Nat) : Int)
  else none

/-- Outcome of one `SendTransaction` call. -/
inductive SendOutcome where
  | ok (hash : Bytes)
  | err (e : RpcError)
  deriving Repr, DecidableEq

/-- Outcome of one `GetTransactionResult` call. -/
inductive PollOutcome where
  | ok (txr : TxResult)
  | err (e : RpcError)
  deriving Repr, DecidableEq

/-- How `SendTransactionAndGetResult` ends: a Go runtime panic (nil
pointer dereference), a send error returned to the caller, a final
`(hash, result, err)` triple, or exhausted modelling fuel. -/
inductive STAGResult where
  | panicked
  | sendFailed (e : RpcError)
  | result (hash : Bytes) (txr : Option TxResult) (err : Option RpcError)
  | outOfFuel
  deriving Repr, DecidableEq

/-- The `txrLoop` polling phase (client.go lines 158-176): poll the
result, retrying while the node answers `Pending` or `Executing`;
anything else is returned with the hash. -/
def txrLoop (poll : Nat → PollOutcome) (hash : Bytes) : Nat → Nat → STAGResult
  | 0, _ => .outOfFuel
  | fuel + 1, m =>
    match poll m with
    | .err (RpcError.jsonrpcError code msg) =>
      if code = JsonrpcErrorCodePending ∨ code = JsonrpcErrorCodeExecuting then
        txrLoop poll hash fuel (m + 1)
      else .result hash none (some (RpcError.jsonrpcError code msg))
    | .err e => .result hash none (some e)
    | .ok txr => .result hash (some txr) none

/-- The `txLoop` submit phase (client.go lines 124-156): resubmit after
`SendFailByOverflow`; on a system error with sub-code 2000
(DuplicateTransactionError) execute `thp.Hash = *txh` — but `txh` is the
nil pointer `SendTransaction` returned with the error, so this arm
panics; any other error is returned to the caller. -/
def txLoop (send : Nat → SendOutcome) (poll : Nat → PollOutcome) :
    Nat → Nat → STAGResult
  | 0, _ => .outOfFuel
  | fuel + 1, n =>
    match send n with
    | .ok h => txrLoop poll h (fuel + 1) 0
    | .err e =>
      match e with
      | .sendFailByOverflow => txLoop send poll fuel (n + 1)
      | .jsonrpcError code msg =>
        if code = JsonrpcErrorCodeSystem ∧ parseSubCode msg = some 2000 then
          match (none : Option Bytes) with
          | some h => txrLoop poll h (fuel + 1) 0
          | none => .panicked
        else .sendFailed (RpcError.jsonrpcError code msg)
      | e2 => .sendFailed e2

/-- client.go lines 122-176: submit, then poll. -/
def SendTransactionAndGetResult (send : Nat → SendOutcome)
    (poll : Nat → PollOutcome) (fuel : Nat) : STAGResult :=
  txLoop send poll fuel 0

/-- Claim C6 is broken by the code at its DuplicateTransactionError arm:
a JSON-RPC system error whose message carries sub-code 2000 makes
`SendTransactionAndGetResult` dereference the nil hash pointer returned
by the failed `SendTransaction` (`thp.Hash = *txh`), a runtime panic —
it never reaches the polling phase.  The other arms behave as claimed:
an overflow error sleeps and resubmits, polling retries through
`Pending`, and any other send error is returned to the caller. -/
theorem duplicate_transaction_error_panics :
    SendTransactionAndGetResult
        (fun _ => .err (RpcError.jsonrpcError JsonrpcErrorCodeSystem
          ("E2000:duplicate Transaction Error")))
        (fun _ => .ok ⟨1⟩) 10 = .panicked ∧
    SendTransactionAndGetResult
        (fun n => if n = 0 then .err RpcError.sendFailByOverflow else .ok [7])
        (fun m => if m = 0 then
            .err (RpcError.jsonrpcError JsonrpcErrorCodePending ("pending"))
          else .ok ⟨1⟩) 10 =
      .result [7] (some ⟨1⟩) none ∧
    SendTransactionAndGetResult (fun _ => .err (RpcError.other ("boom")))
        (fun _ => .ok ⟨1⟩) 10 =
      .sendFailed (RpcError.other ("boom")) := by
  refine ⟨by decide, by decide, by decide⟩

/-! ## Proof-length check and task retry (receiver.go lines 441-461,
508-525)

On `len(proofs) != 1+len(p.Events)` the task body executes
`q.err = errors.Wrapf(q.err, "Proof does not include all events: ...")`
with `q.err` still nil — and `pkg/errors.Wrapf` returns nil for a nil
error, so `q.err` stays nil and the early return is treated by the
collector as a success. -/

/-- `pkg/errors.Wrapf`: wrapping a nil error yields nil. -/
def errorsWrapf (e : Option String) (msg : String) : Option String :=
  match e with
  | none => none
  | some _ => some msg

/-- One attempt of a fan-out task's receipt loop (receiver.go lines
463-609), for the notification's `(receiptIndex, eventIndexes)` pairs:
fetch the proofs array (`getProofs`), check its length against
`1 + len(events)` (the buggy `errors.Wrapf(nil, ...)` arm), prove and
decode the receipt (`proveReceipt`), then walk the events
(`taskReceipt`).  Returns the final `q.err` and the receipts collected
(`q.res.Receipts`). -/
def taskAttempt (f : EventLogRawFilter)
    (getProofs : Nat → Except String (List Bytes))
    (proveReceipt : Nat → Except String TxResult)
    (proveLog : Nat → Nat → Except String EventLog)
    (height : Int) :
    List (Nat × List Nat) → Option String × List Receipt
  | [] => (none, [])
  | (idx, evIdxs) :: rest =>
    match getProofs idx with
    | .error e => (some e, [])
    | .ok proofs =>
      if proofs.length ≠ 1 + evIdxs.length then
        (errorsWrapf none ("Proof does not include all events"), [])
      else
        match proveReceipt idx with
        | .error e => (some e, [])
        | .ok _ =>
          match taskReceipt f (proveLog idx) height idx evIdxs.length with
          | .error e => (some e, [])
          | .ok none => taskAttempt f getProofs proveReceipt proveLog height rest
          | .ok (some r) =>
            match taskAttempt f getProofs proveReceipt proveLog height rest with
            | (err, rs) => (err, r :: rs)

/-- The collector's retry policy (receiver.go lines 441-461): a request
whose attempt ended with a non-nil error is re-queued while its retry
budget (initially `RPCCallRetry`) lasts, then marked nil.  Returns the
accepted receipts (`none` when the entry was marked nil) and the number
of attempts run. -/
def runWithRetry (attempt : Nat → Option String × List Receipt) :
    Nat → Nat → Option (List Receipt) × Nat
  | 0, n =>
    match attempt n with
    | (none, rs) => (some rs, 1)
    | (some _, _) => (none, 1)
  | b + 1, n =>
    match attempt n with
    | (none, rs) => (some rs, 1)
    | (some _, _) =>
      match runWithRetry attempt b (n + 1) with
      | (r, c) => (r, c + 1)

/-- Claim C8 is broken by the code: a proofs array of the wrong length
(here 1 element for 1 requested event, expected 2) does NOT fail the
task — `errors.Wrapf(nil, ...)` leaves `q.err` nil, so the attempt is
accepted as a success on its first run (one attempt, no retry, no
`invalid event` error) with the receipt's events silently dropped. -/
theorem proof_length_mismatch_swallowed :
    runWithRetry
        (fun _ => taskAttempt ⟨[1], [2], [3], 0⟩ (fun _ => .ok [[9]])
          (fun _ => .error ("unused")) (fun _ _ => .error ("unused")) 100
          [(0, [0])]) RPCCallRetry 0 =
      (some [], 1) ∧
    errorsWrapf none ("Proof does not include all events") = none := by
  exact ⟨rfl, rfl⟩

/-! ## Error-channel protocol of Subscribe (receiver.go lines 323-331,
646-676)

The Subscribe goroutine runs `receiveLoop` with `defer close(_errCh)`;
a non-nil return value is sent before the deferred close runs, a nil
return closes without sending.  `receiveLoop` returns nil on context
cancellation (`case <-ctx.Done(): return nil`). -/

/-- The ways receiveLoop's select loop exits. -/
inductive LoopExit where
  | ctxDone
  | errChan (e : String)
  | syncVerifierFail (e : String)
  | updateFatal (e : String)
  | callbackErr (e : String)
  deriving Repr, DecidableEq

/-- The value receiveLoop returns at each exit (lines 326-331, 367-369,
388-394): nil exactly on context cancellation. -/
def receiveLoopResult : LoopExit → Option String
  | .ctxDone => none
  | .errChan e => some e
  | .syncVerifierFail e => some ("sync verifier: " ++ e)
  | .updateFatal e => some ("receiveLoop: update verifier: " ++ e)
  | .callbackErr e => some ("receiveLoop: callback: " ++ e)

/-- Operations the Subscribe goroutine performs on `_errCh`. -/
inductive ErrChanAction where
  | send (e : String)
  | close
  deriving Repr, DecidableEq

/-- Whether an action is a send. -/
def ErrChanAction.isSend : ErrChanAction → Bool
  | .send _ => true
  | .close => false

/-- receiver.go lines 646-675: the goroutine's actions on the error
channel as a function of how receiveLoop ended — send the terminal
error if there is one, then (deferred) close. -/
def subscribeErrActions (ex : LoopExit) : List ErrChanAction :=
  match receiveLoopResult ex with
  | some e => [.send e, .close]
  | none => [.close]

/-- Claim C9: for every way the stream terminates, the error channel
receives at most one terminal error and is then closed (the close is the
last action); context cancellation makes receiveLoop return nil, so the
channel is closed without any error being sent. -/
theorem errchan_closed_after_at_most_one_error :
    (∀ ex : LoopExit,
      ((subscribeErrActions ex).countP (fun a => a.isSend)) ≤ 1 ∧
        (subscribeErrActions ex).getLast? = some ErrChanAction.close) ∧
    subscribeErrActions LoopExit.ctxDone = [ErrChanAction.close] := by
  constructor
  · intro ex
    cases ex <;>
      simp [subscribeErrActions, receiveLoopResult, List.countP_cons,
        ErrChanAction.isSend]
  · rfl
